import Mathlib

/-!
Verification of the axon-cli core against its specification.

The Go sources are shallowly embedded: strings are Lean strings (operated on
through their character lists, with the Go standard-library string and path
functions re-implemented structurally), the hub directory is a finite map
from hub-relative paths to file contents, and each engine is a pure function
over that state.  Filesystem walks become explicit lists of entries in walk
order; I/O errors outside a claim's premise are not modelled.
-/

/- ══════════════════════ Go string and path primitives ══════════════════════ -/

/-- Go `filepath.Ext`: the suffix of the path beginning at the final dot in
the final path element; empty when the final element has no dot.  Implemented
on the character list: the extension of `c :: rest` is the extension of
`rest` when that is non-empty; otherwise it is `c :: rest` exactly when `c`
is a dot and no separator follows. -/
def goExtList : List Char → List Char
  | [] => []
  | c :: rest =>
    let e := goExtList rest
    if e.isEmpty then
      if c = '.' && !(rest.contains '/') then c :: rest else []
    else e

/-- Go `strings.TrimSuffix`: drop `s` from the end of `l` when it is a suffix,
otherwise return `l` unchanged. -/
def trimSuffixList (l s : List Char) : List Char :=
  if s.isSuffixOf l then l.take (l.length - s.length) else l

/-- `conflictPath` from `internal/importer/importer.go`: insert
`.conflict-<tool>` immediately before the final extension of the destination
filename (`ext := filepath.Ext(original)`, `base := TrimSuffix(original, ext)`,
result `base + ".conflict-" + tool + ext`). -/
def conflictPath (original tool : String) : String :=
  let ext := goExtList original.data
  let base := trimSuffixList original.data ext
  ⟨base ++ ".conflict-".data ++ tool.data ++ ext⟩

/- ══════════════════════ Importer (internal/importer/importer.go) ═══════════ -/

/-- The hub directory, as a map from hub-relative paths to file contents.
`none` means no file at that path. -/
def Hub : Type := String → Option String

/-- Point update of a hub: the write performed by `copyFile`, which opens the
destination with `O_CREATE|O_TRUNC` and therefore overwrites any existing
file at that path. -/
def hubSet (h : Hub) (p c : String) : Hub :=
  fun q => if q = p then some c else h q

/-- `ConflictPair` from importer.go. -/
structure ConflictPair where
  original : String
  conflict : String
  tool : String
deriving DecidableEq

/-- The file-level counters of importer.go's `Result` (the skill-level
counters are not referenced by any claim). -/
@[ext]
structure ImportResult where
  conflicts : List ConflictPair
  imported : Nat
  skipped : Nat
deriving DecidableEq

/-- One regular file of the source tree: its path relative to `srcDir`, and
its content. -/
structure SrcFile where
  rel : String
  content : String
deriving DecidableEq

/-- The body of `ImportDir`'s walk callback for one source file, updating the
hub and the result counters.  `md5` is the content fingerprint used by
`fileMD5` (kept abstract as a function of the content); the branches mirror
the source: destination exists and fingerprints match → skip; destination
exists and fingerprints differ → write the incoming copy to the conflict
path and count it as imported; destination absent → plain copy. -/
def importStep (md5 : String → String) (tool : String)
    (st : Hub × ImportResult) (f : SrcFile) : Hub × ImportResult :=
  match st.1 f.rel with
  | some existing =>
    if md5 f.content = md5 existing then
      (st.1, { st.2 with skipped := st.2.skipped + 1 })
    else
      (hubSet st.1 (conflictPath f.rel tool) f.content,
       { st.2 with
           conflicts := st.2.conflicts ++ [⟨f.rel, conflictPath f.rel tool, tool⟩],
           imported := st.2.imported + 1 })
  | none =>
    (hubSet st.1 f.rel f.content, { st.2 with imported := st.2.imported + 1 })

/-- `ImportDir`: fold the walk callback over the source files in walk order.
`src` lists the regular files of the source tree in `WalkDir` order; `excl`
is the exclude filter (`matchesExclude` on the relative path together with
the pruning of excluded directories, abstracted to a predicate on the file's
relative path, so every theorem quantifying over `excl` covers every exclude
list); directory entries only perform `MkdirAll`, which does not change the
file map and is therefore dropped. -/
def importDir (md5 : String → String) (src : List SrcFile) (hub : Hub)
    (tool : String) (excl : String → Bool) : Hub × ImportResult :=
  (src.filter fun f => !excl f.rel).foldl (importStep md5 tool) (hub, ⟨[], 0, 0⟩)

/-- Companion fold that counts only the plain (non-conflict) copies, used to
relate `Imported` to the two kinds of writes. -/
def importFreshStep (md5 : String → String) (tool : String)
    (st : Hub × Nat) (f : SrcFile) : Hub × Nat :=
  match st.1 f.rel with
  | some existing =>
    if md5 f.content = md5 existing then st
    else (hubSet st.1 (conflictPath f.rel tool) f.content, st.2)
  | none => (hubSet st.1 f.rel f.content, st.2 + 1)

/-- Number of files freshly copied (destination absent) during an
`importDir` run. -/
def importFreshCount (md5 : String → String) (src : List SrcFile) (hub : Hub)
    (tool : String) (excl : String → Bool) : Nat :=
  ((src.filter fun f => !excl f.rel).foldl (importFreshStep md5 tool) (hub, 0)).2

/- ══════════════════════ Importer lemmas ══════════════════════ -/

theorem hubSet_same (h : Hub) (p c : String) : hubSet h p c p = some c := by
  simp [hubSet]

theorem hubSet_other (h : Hub) (p c q : String) (hq : q ≠ p) : hubSet h p c q = h q := by
  simp [hubSet, hq]

/-- Exactly one of the three branches of the walk callback fires, and this is
what each does. -/
theorem importStep_trichotomy (md5 : String → String) (tool : String)
    (st : Hub × ImportResult) (f : SrcFile) :
    (∃ e, st.1 f.rel = some e ∧ md5 f.content = md5 e
      ∧ importStep md5 tool st f
          = (st.1, { st.2 with skipped := st.2.skipped + 1 }))
  ∨ (st.1 f.rel = none
      ∧ importStep md5 tool st f
          = (hubSet st.1 f.rel f.content, { st.2 with imported := st.2.imported + 1 }))
  ∨ (∃ e, st.1 f.rel = some e ∧ md5 f.content ≠ md5 e
      ∧ importStep md5 tool st f
          = (hubSet st.1 (conflictPath f.rel tool) f.content,
             { st.2 with
                 conflicts := st.2.conflicts ++ [⟨f.rel, conflictPath f.rel tool, tool⟩],
                 imported := st.2.imported + 1 })) := by
  rcases hm : st.1 f.rel with _ | e
  · exact Or.inr (Or.inl ⟨rfl, by simp [importStep, hm]⟩)
  · by_cases hq : md5 f.content = md5 e
    · exact Or.inl ⟨e, rfl, hq, by simp [importStep, hm, hq]⟩
    · exact Or.inr (Or.inr ⟨e, rfl, hq, by simp [importStep, hm, hq]⟩)

/-- The conflict list only grows along the walk. -/
theorem importFold_conflicts_mono (md5 : String → String) (tool : String) :
    ∀ (l : List SrcFile) (st : Hub × ImportResult),
      ∃ t, (l.foldl (importStep md5 tool) st).2.conflicts = st.2.conflicts ++ t := by
  intro l
  induction l with
  | nil => intro st; exact ⟨[], by simp⟩
  | cons f rest ih =>
    intro st
    rw [List.foldl_cons]
    obtain ⟨t, ht⟩ := ih (importStep md5 tool st f)
    rcases importStep_trichotomy md5 tool st f with ⟨e, hm, hq, hstep⟩ | ⟨hm, hstep⟩ |
      ⟨e, hm, hq, hstep⟩
    · exact ⟨t, by rw [ht, hstep]⟩
    · exact ⟨t, by rw [ht, hstep]⟩
    · refine ⟨⟨f.rel, conflictPath f.rel tool, tool⟩ :: t, ?_⟩
      rw [ht, hstep]
      simp

/-- Every processed file increments exactly one of `Imported` and `Skipped`. -/
theorem importFold_counts (md5 : String → String) (tool : String) :
    ∀ (l : List SrcFile) (st : Hub × ImportResult),
      (l.foldl (importStep md5 tool) st).2.imported
          + (l.foldl (importStep md5 tool) st).2.skipped
        = st.2.imported + st.2.skipped + l.length := by
  intro l
  induction l with
  | nil => intro st; simp
  | cons f rest ih =>
    intro st
    rw [List.foldl_cons]
    have h := ih (importStep md5 tool st f)
    rcases importStep_trichotomy md5 tool st f with ⟨e, hm, hq, hstep⟩ | ⟨hm, hstep⟩ |
      ⟨e, hm, hq, hstep⟩ <;>
      rw [hstep] at h ⊢ <;> simp at h ⊢ <;> omega

/-- Files present in the hub stay present (their content may change only
through a conflict write, but they are never deleted). -/
theorem importFold_some (md5 : String → String) (tool : String) :
    ∀ (l : List SrcFile) (st : Hub × ImportResult) (p c : String),
      st.1 p = some c →
      ∃ c2, (l.foldl (importStep md5 tool) st).1 p = some c2 := by
  intro l
  induction l with
  | nil => intro st p c hp; exact ⟨c, by simpa using hp⟩
  | cons f rest ih =>
    intro st p c hp
    rw [List.foldl_cons]
    rcases importStep_trichotomy md5 tool st f with ⟨e, hm, hq, hstep⟩ | ⟨hm, hstep⟩ |
      ⟨e, hm, hq, hstep⟩
    · refine ih _ p c ?_
      rw [hstep]
      exact hp
    · by_cases hpf : p = f.rel
      · refine ih _ p f.content ?_
        rw [hstep]
        show hubSet st.1 f.rel f.content p = some f.content
        rw [hpf]
        exact hubSet_same _ _ _
      · refine ih _ p c ?_
        rw [hstep]
        show hubSet st.1 f.rel f.content p = some c
        rw [hubSet_other _ _ _ _ hpf]
        exact hp
    · by_cases hpf : p = conflictPath f.rel tool
      · refine ih _ p f.content ?_
        rw [hstep]
        show hubSet st.1 (conflictPath f.rel tool) f.content p = some f.content
        rw [hpf]
        exact hubSet_same _ _ _
      · refine ih _ p c ?_
        rw [hstep]
        show hubSet st.1 (conflictPath f.rel tool) f.content p = some c
        rw [hubSet_other _ _ _ _ hpf]
        exact hp

/-- A path that is neither a processed file's destination nor a processed
file's conflict path is untouched by the walk. -/
theorem importFold_frame (md5 : String → String) (tool : String) :
    ∀ (l : List SrcFile) (st : Hub × ImportResult) (p : String),
      (∀ f ∈ l, p ≠ f.rel ∧ p ≠ conflictPath f.rel tool) →
      (l.foldl (importStep md5 tool) st).1 p = st.1 p := by
  intro l
  induction l with
  | nil => intro st p _; simp
  | cons f rest ih =>
    intro st p hp
    rw [List.foldl_cons]
    obtain ⟨hp1, hp2⟩ := hp f (List.mem_cons_self f rest)
    have hrest : ∀ g ∈ rest, p ≠ g.rel ∧ p ≠ conflictPath g.rel tool :=
      fun g hg => hp g (List.mem_cons_of_mem f hg)
    rcases importStep_trichotomy md5 tool st f with ⟨e, hm, hq, hstep⟩ | ⟨hm, hstep⟩ |
      ⟨e, hm, hq, hstep⟩
    · rw [ih _ p hrest, hstep]
    · rw [ih _ p hrest, hstep]
      exact hubSet_other _ _ _ _ hp1
    · rw [ih _ p hrest, hstep]
      exact hubSet_other _ _ _ _ hp2

/-- In a stretch of the walk that records no conflict, only destinations of
processed files are written, so any other path is untouched. -/
theorem importFold_frame_noconf (md5 : String → String) (tool : String) :
    ∀ (l : List SrcFile) (st : Hub × ImportResult) (p : String),
      (l.foldl (importStep md5 tool) st).2.conflicts = st.2.conflicts →
      (∀ f ∈ l, p ≠ f.rel) →
      (l.foldl (importStep md5 tool) st).1 p = st.1 p := by
  intro l
  induction l with
  | nil => intro st p _ _; simp
  | cons f rest ih =>
    intro st p hc hp
    rw [List.foldl_cons] at hc ⊢
    rcases importStep_trichotomy md5 tool st f with ⟨e, hm, hq, hstep⟩ | ⟨hm, hstep⟩ |
      ⟨e, hm, hq, hstep⟩
    · rw [hstep] at hc ⊢
      exact ih _ p hc fun g hg => hp g (List.mem_cons_of_mem f hg)
    · rw [hstep] at hc ⊢
      rw [ih _ p hc fun g hg => hp g (List.mem_cons_of_mem f hg)]
      exact hubSet_other _ _ _ _ (hp f (List.mem_cons_self f rest))
    · exfalso
      rw [hstep] at hc
      obtain ⟨t, ht⟩ := importFold_conflicts_mono md5 tool rest
        (hubSet st.1 (conflictPath f.rel tool) f.content,
         { st.2 with
             conflicts := st.2.conflicts ++ [⟨f.rel, conflictPath f.rel tool, tool⟩],
             imported := st.2.imported + 1 })
      rw [ht] at hc
      simp at hc

/-- When every processed file already sits in the hub with a
fingerprint-equal content, the walk changes nothing and only counts skips. -/
theorem importFold_all_skip (md5 : String → String) (tool : String) :
    ∀ (l : List SrcFile) (st : Hub × ImportResult),
      (∀ f ∈ l, ∃ e, st.1 f.rel = some e ∧ md5 f.content = md5 e) →
      (l.foldl (importStep md5 tool) st).1 = st.1
      ∧ (l.foldl (importStep md5 tool) st).2.conflicts = st.2.conflicts
      ∧ (l.foldl (importStep md5 tool) st).2.imported = st.2.imported
      ∧ (l.foldl (importStep md5 tool) st).2.skipped = st.2.skipped + l.length := by
  intro l
  induction l with
  | nil => intro st _; simp
  | cons f rest ih =>
    intro st hall
    obtain ⟨e, hm, hq⟩ := hall f (List.mem_cons_self f rest)
    have hstep : importStep md5 tool st f = (st.1, { st.2 with skipped := st.2.skipped + 1 }) := by
      simp [importStep, hm, hq]
    rw [List.foldl_cons, hstep]
    have ihr := ih (st.1, { st.2 with skipped := st.2.skipped + 1 })
      (fun g hg => hall g (List.mem_cons_of_mem f hg))
    refine ⟨ihr.1, ?_, ?_, ?_⟩
    · simpa using ihr.2.1
    · simpa using ihr.2.2.1
    · have := ihr.2.2.2
      simp at this ⊢
      omega

/-- A run that records no conflicts leaves every processed file present in
the hub with a fingerprint equal to its source content. -/
theorem importFold_no_conflicts (md5 : String → String) (tool : String) :
    ∀ (l : List SrcFile) (st : Hub × ImportResult),
      (l.map SrcFile.rel).Nodup →
      (l.foldl (importStep md5 tool) st).2.conflicts = st.2.conflicts →
      ∀ f ∈ l, ∃ e, (l.foldl (importStep md5 tool) st).1 f.rel = some e
        ∧ md5 f.content = md5 e := by
  intro l
  induction l with
  | nil => intro st _ _ f hf; exact absurd hf (List.not_mem_nil f)
  | cons f rest ih =>
    intro st hnd hc g hg
    rw [List.map_cons, List.nodup_cons] at hnd
    rw [List.foldl_cons] at hc ⊢
    rcases importStep_trichotomy md5 tool st f with ⟨e, hm, hq, hstep⟩ | ⟨hm, hstep⟩ |
      ⟨e, hm, hq, hstep⟩
    · rw [hstep] at hc ⊢
      simp only at hc
      rcases List.mem_cons.mp hg with hgf | hgr
      · subst hgf
        refine ⟨e, ?_, hq⟩
        rw [importFold_frame_noconf md5 tool rest _ g.rel hc ?_]
        · exact hm
        · intro g2 hg2 hne
          exact hnd.1 (hne ▸ List.mem_map_of_mem SrcFile.rel hg2)
      · exact ih _ hnd.2 hc g hgr
    · rw [hstep] at hc ⊢
      simp only at hc
      rcases List.mem_cons.mp hg with hgf | hgr
      · subst hgf
        refine ⟨g.content, ?_, rfl⟩
        rw [importFold_frame_noconf md5 tool rest _ g.rel hc ?_]
        · exact hubSet_same _ _ _
        · intro g2 hg2 hne
          exact hnd.1 (hne ▸ List.mem_map_of_mem SrcFile.rel hg2)
      · exact ih _ hnd.2 hc g hgr
    · exfalso
      rw [hstep] at hc
      obtain ⟨t, ht⟩ := importFold_conflicts_mono md5 tool rest
        (hubSet st.1 (conflictPath f.rel tool) f.content,
         { st.2 with
             conflicts := st.2.conflicts ++ [⟨f.rel, conflictPath f.rel tool, tool⟩],
             imported := st.2.imported + 1 })
      rw [ht] at hc
      simp at hc

/-- Main safety invariant of the walk.  Provided no processed file's conflict
path collides with a hub file, a processed destination, or another file's
conflict path, the walk (a) preserves every pre-existing hub file with its
content and (b) places the incoming copy of each colliding file at its
conflict path exactly when the fingerprints differ. -/
theorem importFold_safety (md5 : String → String) (tool : String) :
    ∀ (l : List SrcFile) (st : Hub × ImportResult),
      (l.map SrcFile.rel).Nodup →
      (∀ f ∈ l, st.1 (conflictPath f.rel tool) = none) →
      (∀ f ∈ l, ∀ g ∈ l, conflictPath f.rel tool ≠ g.rel) →
      (∀ f ∈ l, ∀ g ∈ l, conflictPath f.rel tool = conflictPath g.rel tool →
        f.rel = g.rel) →
      ((∀ p c, st.1 p = some c → (l.foldl (importStep md5 tool) st).1 p = some c)
        ∧ (∀ f ∈ l, ∀ c0, st.1 f.rel = some c0 →
            (md5 f.content = md5 c0 →
              (l.foldl (importStep md5 tool) st).1 (conflictPath f.rel tool) = none)
            ∧ (md5 f.content ≠ md5 c0 →
              (l.foldl (importStep md5 tool) st).1 (conflictPath f.rel tool)
                = some f.content))) := by
  intro l
  induction l with
  | nil =>
    intro st _ _ _ _
    exact ⟨fun p c hp => by simpa using hp, fun f hf => absurd hf (List.not_mem_nil f)⟩
  | cons f rest ih =>
    intro st hnd h1 h2 h3
    rw [List.map_cons, List.nodup_cons] at hnd
    have hfl : f ∈ f :: rest := List.mem_cons_self f rest
    have hmem : ∀ g ∈ rest, g ∈ f :: rest := fun g hg => List.mem_cons_of_mem f hg
    have h2r : ∀ a ∈ rest, ∀ b ∈ rest, conflictPath a.rel tool ≠ b.rel :=
      fun a ha b hb => h2 a (hmem a ha) b (hmem b hb)
    have h3r : ∀ a ∈ rest, ∀ b ∈ rest,
        conflictPath a.rel tool = conflictPath b.rel tool → a.rel = b.rel :=
      fun a ha b hb => h3 a (hmem a ha) b (hmem b hb)
    have hcpne : ∀ g ∈ rest, conflictPath g.rel tool ≠ conflictPath f.rel tool := by
      intro g hg hcontra
      have := h3 g (hmem g hg) f hfl hcontra
      exact hnd.1 (this ▸ List.mem_map_of_mem SrcFile.rel hg)
    rw [List.foldl_cons]
    rcases importStep_trichotomy md5 tool st f with ⟨e, hm, hq, hstep⟩ | ⟨hm, hstep⟩ |
      ⟨e, hm, hq, hstep⟩
    · -- identical duplicate: the hub is unchanged by this step
      rw [hstep]
      have ihr := ih (st.1, { st.2 with skipped := st.2.skipped + 1 }) hnd.2
        (fun g hg => h1 g (hmem g hg)) h2r h3r
      refine ⟨fun p c hp => ihr.1 p c hp, ?_⟩
      intro g hg c0 hgc
      rcases List.mem_cons.mp hg with hgf | hgr
      · subst hgf
        rw [hm] at hgc
        obtain rfl : e = c0 := Option.some.inj hgc
        constructor
        · intro _
          rw [importFold_frame md5 tool rest _ (conflictPath g.rel tool) ?_]
          · exact h1 g hfl
          · intro g2 hg2
            exact ⟨h2 g hfl g2 (hmem g2 hg2), Ne.symm (hcpne g2 hg2)⟩
        · intro hne
          exact absurd hq hne
      · exact ihr.2 g hgr c0 hgc
    · -- fresh copy at f.rel
      rw [hstep]
      have ihr := ih (hubSet st.1 f.rel f.content,
          { st.2 with imported := st.2.imported + 1 }) hnd.2 ?_ h2r h3r
      · refine ⟨?_, ?_⟩
        · intro p c hp
          refine ihr.1 p c ?_
          have hpne : p ≠ f.rel := fun hpf => by rw [hpf, hm] at hp; exact Option.noConfusion hp
          show hubSet st.1 f.rel f.content p = some c
          rw [hubSet_other _ _ _ _ hpne]
          exact hp
        · intro g hg c0 hgc
          rcases List.mem_cons.mp hg with hgf | hgr
          · subst hgf
            rw [hm] at hgc
            exact Option.noConfusion hgc
          · refine ihr.2 g hgr c0 ?_
            have hgne : g.rel ≠ f.rel := by
              intro hcontra
              exact hnd.1 (hcontra ▸ List.mem_map_of_mem SrcFile.rel hgr)
            show hubSet st.1 f.rel f.content g.rel = some c0
            rw [hubSet_other _ _ _ _ hgne]
            exact hgc
      · intro g hg
        show hubSet st.1 f.rel f.content (conflictPath g.rel tool) = none
        rw [hubSet_other _ _ _ _ (h2 g (hmem g hg) f hfl)]
        exact h1 g (hmem g hg)
    · -- conflict: the incoming copy goes to the conflict path
      rw [hstep]
      have ihr := ih (hubSet st.1 (conflictPath f.rel tool) f.content,
          { st.2 with
              conflicts := st.2.conflicts ++ [⟨f.rel, conflictPath f.rel tool, tool⟩],
              imported := st.2.imported + 1 }) hnd.2 ?_ h2r h3r
      · refine ⟨?_, ?_⟩
        · intro p c hp
          refine ihr.1 p c ?_
          have hpne : p ≠ conflictPath f.rel tool := by
            intro hpf
            rw [hpf, h1 f hfl] at hp
            exact Option.noConfusion hp
          show hubSet st.1 (conflictPath f.rel tool) f.content p = some c
          rw [hubSet_other _ _ _ _ hpne]
          exact hp
        · intro g hg c0 hgc
          rcases List.mem_cons.mp hg with hgf | hgr
          · subst hgf
            rw [hm] at hgc
            obtain rfl : e = c0 := Option.some.inj hgc
            refine ⟨fun heq => absurd heq hq, fun _ => ?_⟩
            refine ihr.1 (conflictPath g.rel tool) g.content ?_
            exact hubSet_same _ _ _
          · refine ihr.2 g hgr c0 ?_
            show hubSet st.1 (conflictPath f.rel tool) f.content g.rel = some c0
            rw [hubSet_other _ _ _ _ (Ne.symm (h2 f hfl g (hmem g hgr)))]
            exact hgc
      · intro g hg
        show hubSet st.1 (conflictPath f.rel tool) f.content (conflictPath g.rel tool) = none
        rw [hubSet_other _ _ _ _ (hcpne g hg)]
        exact h1 g (hmem g hg)

/-- The two folds walk the hub identically, and the imported counter grows by
one fresh copy or one conflict copy per step. -/
theorem importFold_fresh_relation (md5 : String → String) (tool : String) :
    ∀ (l : List SrcFile) (st : Hub × ImportResult) (sf : Hub × Nat),
      st.1 = sf.1 →
      (l.foldl (importStep md5 tool) st).1 = (l.foldl (importFreshStep md5 tool) sf).1
      ∧ (l.foldl (importStep md5 tool) st).2.imported + sf.2 + st.2.conflicts.length
          = st.2.imported + (l.foldl (importFreshStep md5 tool) sf).2
            + (l.foldl (importStep md5 tool) st).2.conflicts.length := by
  intro l
  induction l with
  | nil =>
    intro st sf hh
    refine ⟨by simpa using hh, by simp⟩
  | cons f rest ih =>
    intro st sf hh
    rw [List.foldl_cons, List.foldl_cons]
    rcases importStep_trichotomy md5 tool st f with ⟨e, hm, hq, hstep⟩ | ⟨hm, hstep⟩ |
      ⟨e, hm, hq, hstep⟩
    · have hstepf : importFreshStep md5 tool sf f = sf := by
        simp [importFreshStep, ← hh, hm, hq]
      rw [hstep, hstepf]
      have ihr := ih (st.1, { st.2 with skipped := st.2.skipped + 1 }) sf hh
      refine ⟨ihr.1, ?_⟩
      have hrel := ihr.2
      simp at hrel ⊢
      omega
    · have hstepf : importFreshStep md5 tool sf f = (hubSet sf.1 f.rel f.content, sf.2 + 1) := by
        simp [importFreshStep, ← hh, hm]
      rw [hstep, hstepf]
      have ihr := ih (hubSet st.1 f.rel f.content, { st.2 with imported := st.2.imported + 1 })
        (hubSet sf.1 f.rel f.content, sf.2 + 1) (by rw [hh])
      refine ⟨ihr.1, ?_⟩
      have hrel := ihr.2
      simp at hrel ⊢
      omega
    · have hstepf : importFreshStep md5 tool sf f
          = (hubSet sf.1 (conflictPath f.rel tool) f.content, sf.2) := by
        simp [importFreshStep, ← hh, hm, hq]
      rw [hstep, hstepf]
      have ihr := ih (hubSet st.1 (conflictPath f.rel tool) f.content,
          { st.2 with
              conflicts := st.2.conflicts ++ [⟨f.rel, conflictPath f.rel tool, tool⟩],
              imported := st.2.imported + 1 })
        (hubSet sf.1 (conflictPath f.rel tool) f.content, sf.2) (by rw [hh])
      refine ⟨ihr.1, ?_⟩
      have hrel := ihr.2
      simp at hrel ⊢
      omega

/- ══════════════════════ Claim theorems: importer ══════════════════════ -/

/-- C9: every conflict copy is also counted in `Imported`, so the returned
`Imported` equals the number of freshly copied files plus the number of
conflict copies written. -/
theorem imported_counts_fresh_plus_conflicts (md5 : String → String)
    (src : List SrcFile) (hub : Hub) (tool : String) (excl : String → Bool) :
    (importDir md5 src hub tool excl).2.imported
      = importFreshCount md5 src hub tool excl
        + (importDir md5 src hub tool excl).2.conflicts.length := by
  have h := importFold_fresh_relation md5 tool (src.filter fun f => !excl f.rel)
    (hub, ⟨[], 0, 0⟩) (hub, 0) rfl
  have h2 := h.2
  simp at h2
  rw [importDir, importFreshCount]
  omega

/-- C1 (amended): when the first run records no conflicts, a second run of
the importer changes nothing: it yields the identical hub, records no
conflicts, imports nothing, and skips exactly the files the first run
imported or skipped. -/
theorem importDir_second_run_all_skipped (md5 : String → String) (src : List SrcFile)
    (hub0 : Hub) (tool : String) (excl : String → Bool) (hub1 hub2 : Hub)
    (res1 res2 : ImportResult)
    (hnd : ((src.filter fun f => !excl f.rel).map SrcFile.rel).Nodup)
    (h1 : importDir md5 src hub0 tool excl = (hub1, res1))
    (hconf : res1.conflicts = [])
    (h2 : importDir md5 src hub1 tool excl = (hub2, res2)) :
    hub2 = hub1 ∧ res2.conflicts = [] ∧ res2.imported = 0
      ∧ res2.skipped = res1.imported + res1.skipped := by
  have hh1 : ((src.filter fun f => !excl f.rel).foldl (importStep md5 tool)
      (hub0, (⟨[], 0, 0⟩ : ImportResult))).1 = hub1 := by
    rw [importDir] at h1
    rw [h1]
  have hr1 : ((src.filter fun f => !excl f.rel).foldl (importStep md5 tool)
      (hub0, (⟨[], 0, 0⟩ : ImportResult))).2 = res1 := by
    rw [importDir] at h1
    rw [h1]
  have hcempty : ((src.filter fun f => !excl f.rel).foldl (importStep md5 tool)
      (hub0, (⟨[], 0, 0⟩ : ImportResult))).2.conflicts
        = ((hub0, (⟨[], 0, 0⟩ : ImportResult)).2).conflicts := by
    rw [hr1, hconf]
  have hall := importFold_no_conflicts md5 tool (src.filter fun f => !excl f.rel)
    (hub0, ⟨[], 0, 0⟩) hnd hcempty
  rw [hh1] at hall
  have hall2 : ∀ f ∈ src.filter fun f => !excl f.rel,
      ∃ e, ((hub1, (⟨[], 0, 0⟩ : ImportResult)) : Hub × ImportResult).1 f.rel = some e
        ∧ md5 f.content = md5 e := hall
  have hskip := importFold_all_skip md5 tool (src.filter fun f => !excl f.rel)
    (hub1, ⟨[], 0, 0⟩) hall2
  rw [importDir] at h2
  have hcount := importFold_counts md5 tool (src.filter fun f => !excl f.rel)
    (hub0, ⟨[], 0, 0⟩)
  rw [hr1] at hcount
  simp at hcount
  have e1 : ((src.filter fun f => !excl f.rel).foldl (importStep md5 tool)
      (hub1, (⟨[], 0, 0⟩ : ImportResult))).1 = hub2 := by rw [h2]
  have e2 : ((src.filter fun f => !excl f.rel).foldl (importStep md5 tool)
      (hub1, (⟨[], 0, 0⟩ : ImportResult))).2 = res2 := by rw [h2]
  refine ⟨?_, ?_, ?_, ?_⟩
  · rw [← e1]
    exact hskip.1
  · rw [← e2]
    simpa using hskip.2.1
  · rw [← e2]
    simpa using hskip.2.2.1
  · rw [← e2]
    have h4 := hskip.2.2.2
    simp at h4
    rw [h4]
    omega

/-- C1 witness: a concrete one-file import into an empty hub satisfies the
hypotheses, and a second run skips that single file. -/
theorem importDir_second_run_all_skipped_witness :
    ((([⟨"a", "x"⟩] : List SrcFile).filter fun f => !(fun _ => false) f.rel).map
        SrcFile.rel).Nodup
    ∧ ((importDir (fun s => s) [⟨"a", "x"⟩] (fun _ => none) "t" (fun _ => false)).2.conflicts
        = [])
    ∧ ((importDir (fun s => s) [⟨"a", "x"⟩]
          (importDir (fun s => s) [⟨"a", "x"⟩] (fun _ => none) "t" (fun _ => false)).1
          "t" (fun _ => false)).2.skipped
        = (importDir (fun s => s) [⟨"a", "x"⟩] (fun _ => none) "t" (fun _ => false)).2.imported
          + (importDir (fun s => s) [⟨"a", "x"⟩] (fun _ => none) "t"
              (fun _ => false)).2.skipped) := by
  refine ⟨by decide, by decide, ?_⟩
  exact (importDir_second_run_all_skipped (fun s => s) [⟨"a", "x"⟩] (fun _ => none) "t"
    (fun _ => false) _ _ _ _ (by decide) rfl (by decide) rfl).2.2.2

/-- C1 counterexample: importing a one-file tree into a hub that already
holds a different file of the same name records a conflict on BOTH runs, so
the second run's `Skipped` (0) differs from the first run's `Imported` (1)
and the second run's conflict list is not empty. -/
theorem importDir_twice_counterexample :
    ((importDir (fun s => s) [⟨"a", "x"⟩]
        (fun p => if p = "a" then some "y" else none) "t" (fun _ => false)).2.imported = 1)
    ∧ ((importDir (fun s => s) [⟨"a", "x"⟩]
          (importDir (fun s => s) [⟨"a", "x"⟩]
            (fun p => if p = "a" then some "y" else none) "t" (fun _ => false)).1
          "t" (fun _ => false)).2.skipped = 0)
    ∧ ((importDir (fun s => s) [⟨"a", "x"⟩]
          (importDir (fun s => s) [⟨"a", "x"⟩]
            (fun p => if p = "a" then some "y" else none) "t" (fun _ => false)).1
          "t" (fun _ => false)).2.conflicts
        = [⟨"a", "a.conflict-t", "t"⟩]) := by
  refine ⟨by decide, by decide, by decide⟩

/-- C2 (amended): provided no processed file's conflict path is already a hub
path, a processed destination, or shared with another file, an import run
keeps every pre-existing hub file with its content, and for each colliding
file either the fingerprints match and only the original copy remains (no
conflict copy appears) or both copies exist, the incoming one at the
conflict path. -/
theorem importDir_conflict_safety (md5 : String → String) (src : List SrcFile)
    (hub0 : Hub) (tool : String) (excl : String → Bool) (hub1 : Hub)
    (res1 : ImportResult)
    (hnd : ((src.filter fun f => !excl f.rel).map SrcFile.rel).Nodup)
    (hfresh : ∀ f ∈ src.filter fun f => !excl f.rel,
      hub0 (conflictPath f.rel tool) = none)
    (hnocol : ∀ f ∈ src.filter fun f => !excl f.rel,
      ∀ g ∈ src.filter fun f => !excl f.rel, conflictPath f.rel tool ≠ g.rel)
    (hinj : ∀ f ∈ src.filter fun f => !excl f.rel,
      ∀ g ∈ src.filter fun f => !excl f.rel,
      conflictPath f.rel tool = conflictPath g.rel tool → f.rel = g.rel)
    (h1 : importDir md5 src hub0 tool excl = (hub1, res1)) :
    (∀ p c, hub0 p = some c → hub1 p = some c)
    ∧ (∀ f ∈ src.filter fun f => !excl f.rel, ∀ c0, hub0 f.rel = some c0 →
        (md5 f.content = md5 c0 →
          hub1 f.rel = some c0 ∧ hub1 (conflictPath f.rel tool) = none)
        ∧ (md5 f.content ≠ md5 c0 →
          hub1 f.rel = some c0 ∧ hub1 (conflictPath f.rel tool) = some f.content)) := by
  have e1 : ((src.filter fun f => !excl f.rel).foldl (importStep md5 tool)
      (hub0, (⟨[], 0, 0⟩ : ImportResult))).1 = hub1 := by
    rw [importDir] at h1
    rw [h1]
  have hsafe := importFold_safety md5 tool (src.filter fun f => !excl f.rel)
    (hub0, ⟨[], 0, 0⟩) hnd hfresh hnocol hinj
  rw [e1] at hsafe
  refine ⟨hsafe.1, ?_⟩
  intro f hf c0 hc0
  have hp := hsafe.2 f hf c0 hc0
  refine ⟨fun heq => ⟨hsafe.1 f.rel c0 hc0, hp.1 heq⟩,
    fun hne => ⟨hsafe.1 f.rel c0 hc0, hp.2 hne⟩⟩

/-- C2 witness: a one-file import colliding with a different pre-existing hub
file satisfies the hypotheses, keeps the original, and places the incoming
copy at the conflict path. -/
theorem importDir_conflict_safety_witness :
    ((([⟨"a.md", "x"⟩] : List SrcFile).filter fun f => !(fun _ => false) f.rel).map
        SrcFile.rel).Nodup
    ∧ (∀ f ∈ ([⟨"a.md", "x"⟩] : List SrcFile).filter fun f => !(fun _ => false) f.rel,
        (fun p => if p = "a.md" then some "y" else none : Hub)
          (conflictPath f.rel "t") = none)
    ∧ ((importDir (fun s => s) [⟨"a.md", "x"⟩]
          (fun p => if p = "a.md" then some "y" else none) "t" (fun _ => false)).1
        "a.md" = some "y")
    ∧ ((importDir (fun s => s) [⟨"a.md", "x"⟩]
          (fun p => if p = "a.md" then some "y" else none) "t" (fun _ => false)).1
        (conflictPath "a.md" "t") = some "x") := by
  refine ⟨by decide, by decide, ?_⟩
  have h := importDir_conflict_safety (fun s => s) [⟨"a.md", "x"⟩]
    (fun p => if p = "a.md" then some "y" else none) "t" (fun _ => false) _ _
    (by decide) (by decide) (by decide) (by decide) rfl
  have hf := h.2 ⟨"a.md", "x"⟩ (by decide) "y" (by decide)
  have hres := hf.2 (by decide)
  exact ⟨hres.1, hres.2⟩

/-- C2 counterexample: a conflict write DOES overwrite a pre-existing hub
file when that file already sits at the conflict path (`copyFile` opens with
`O_TRUNC`): here the hub holds `a` (content `y`) and `a.conflict-t` (content
`w`); importing `a` with content `x` rewrites `a.conflict-t` to `x`. -/
theorem importDir_overwrite_counterexample :
    ((fun p => if p = "a" then some "y" else if p = "a.conflict-t" then some "w" else none :
        Hub) "a.conflict-t" = some "w")
    ∧ ((importDir (fun s => s) [⟨"a", "x"⟩]
          (fun p => if p = "a" then some "y" else if p = "a.conflict-t" then some "w" else none)
          "t" (fun _ => false)).1 "a.conflict-t" = some "x")
    ∧ ("x" : String) ≠ "w" := by
  refine ⟨by decide, by decide, by decide⟩

/-- The computed extension is always a suffix of the path. -/
theorem goExtList_suffix (l : List Char) : goExtList l <:+ l := by
  induction l with
  | nil => simp [goExtList]
  | cons c rest ih =>
    rw [goExtList]
    by_cases he : (goExtList rest).isEmpty
    · rw [if_pos he]
      by_cases hc : (c = '.' && !(rest.contains '/')) = true
      · rw [if_pos hc]
      · rw [if_neg hc]
        exact List.nil_suffix
    · rw [if_neg he]
      exact ih.trans (List.suffix_cons c rest)

/-- C7: the conflict path is the destination filename with
`.conflict-<tool>` inserted immediately before its final extension; in
particular `oracle.md` maps to `oracle.conflict-antigravity.md` and
`a.prompt.md` to `a.prompt.conflict-antigravity.md`. -/
theorem conflictPath_inserts_before_ext :
    conflictPath "oracle.md" "antigravity" = "oracle.conflict-antigravity.md"
    ∧ conflictPath "a.prompt.md" "antigravity" = "a.prompt.conflict-antigravity.md"
    ∧ ∀ (p t : String), ∃ stem : List Char,
        p.data = stem ++ goExtList p.data
        ∧ (conflictPath p t).data = stem ++ ".conflict-".data ++ t.data ++ goExtList p.data := by
  refine ⟨by decide, by decide, ?_⟩
  intro p t
  obtain ⟨stem, hstem⟩ := goExtList_suffix p.data
  refine ⟨stem, hstem.symm, ?_⟩
  have hsuf : (goExtList p.data).isSuffixOf p.data := by
    rw [List.isSuffixOf_iff_suffix]
    exact goExtList_suffix p.data
  have hbase : trimSuffixList p.data (goExtList p.data) = stem := by
    rw [trimSuffixList, if_pos hsuf]
    set E := goExtList p.data with hE
    rw [← hstem]
    have hlen : (stem ++ E).length - E.length = stem.length := by simp
    rw [hlen]
    exact List.take_left stem E
  show (trimSuffixList p.data (goExtList p.data)) ++ ".conflict-".data ++ t.data
      ++ goExtList p.data = stem ++ ".conflict-".data ++ t.data ++ goExtList p.data
  rw [hbase]

/- ══════════════════════ Unlink engine (cmd/update.go runUnlink) ════════════ -/

/-- What `os.Lstat` reports about the destination in `runUnlink`: the parent
directory is missing, the destination does not exist, it is a symbolic link,
or it exists and is something else (regular file or directory). -/
inductive DestState where
  | parentMissing
  | notExist
  | symlink
  | notSymlink
deriving DecidableEq

/-- A destructive filesystem action of the unlink engine: `os.Remove` of a
path or `os.Rename` of a backup onto the destination. -/
inductive FsAction where
  | remove (p : String)
  | rename (src dst : String)
deriving DecidableEq

/-- Per-target body of `runUnlink`: given the destination path, what `Lstat`
found there, and the newest backup (if any), return the recorded state, the
detail message, and the destructive actions performed.  The error legs of
`os.Remove`/`os.Rename` are not modelled (the claim concerns which actions
are attempted, not their failure handling). -/
def runUnlinkTarget (dest : String) (st : DestState) (backup : Option String) :
    String × String × List FsAction :=
  match st with
  | .parentMissing => ("not_installed", "", [])
  | .notExist => ("not_exist", "", [])
  | .notSymlink => ("not_symlink", dest ++ " is not a symlink", [])
  | .symlink =>
    match backup with
    | none => ("removed", "no backup found", [.remove dest])
    | some b => ("restored", b ++ " → " ++ dest, [.remove dest, .rename b dest])

/-- C3: a destination that exists and is not a symlink is refused with state
`not_symlink` and a non-empty message, and no destructive action touches it;
removal and backup restoration happen only when the destination is a
symlink. -/
theorem unlink_refuses_non_symlinks (dest : String) (st : DestState)
    (backup : Option String) :
    (st = .notSymlink →
      (runUnlinkTarget dest st backup).1 = "not_symlink"
      ∧ (runUnlinkTarget dest st backup).2.1 = dest ++ " is not a symlink"
      ∧ (runUnlinkTarget dest st backup).2.2 = [])
    ∧ ((runUnlinkTarget dest st backup).2.2 ≠ [] → st = .symlink) := by
  cases st <;> cases backup <;> simp [runUnlinkTarget]

/-- C3 witness: a regular-file destination is refused with an empty action
list, and an action-performing run is on a symlink. -/
theorem unlink_refuses_non_symlinks_witness :
    ((runUnlinkTarget "/home/u/.codeium/skills" DestState.notSymlink none).1 = "not_symlink"
      ∧ (runUnlinkTarget "/home/u/.codeium/skills" DestState.notSymlink none).2.1
          = "/home/u/.codeium/skills" ++ " is not a symlink"
      ∧ (runUnlinkTarget "/home/u/.codeium/skills" DestState.notSymlink none).2.2 = [])
    ∧ ((runUnlinkTarget "/home/u/.codeium/skills" DestState.symlink none).2.2 ≠ []
        → DestState.symlink = DestState.symlink) := by
  constructor
  · exact (unlink_refuses_non_symlinks "/home/u/.codeium/skills" DestState.notSymlink none).1
      rfl
  · exact (unlink_refuses_non_symlinks "/home/u/.codeium/skills" DestState.symlink none).2

/- ══════════════════ Archive path sanitization (cmd/update.go) ══════════════ -/

/-- Go `strings.ReplaceAll(name, "\\", "/")` (both operands are single
characters, so it is a character map). -/
def backslashToSlash (l : List Char) : List Char :=
  l.map fun c => if c = '\\' then '/' else c

/-- Go `strings.TrimPrefix(name, "./")`: drop one leading `./` occurrence. -/
def trimDotSlash : List Char → List Char
  | '.' :: '/' :: rest => rest
  | l => l

/-- Go `strings.Split(name, "/")`. -/
def splitSlash : List Char → List (List Char)
  | [] => [[]]
  | c :: rest =>
    match splitSlash rest with
    | [] => [[c]]
    | h :: t => if c = '/' then [] :: h :: t else (c :: h) :: t

/-- Go `strings.HasPrefix(name, "/")`. -/
def startsWithSlash : List Char → Bool
  | '/' :: _ => true
  | _ => false

/-- One segment of the lexical processing of Go `filepath.Clean` (slash
separator): empty and dot segments are dropped, a dot-dot pops the previous
segment (or is kept when at the start of a relative path, or dropped at the
root of an absolute one), anything else is appended. -/
def cleanSegsStep (rooted : Bool) (acc : List (List Char)) (seg : List Char) :
    List (List Char) :=
  if seg = [] ∨ seg = ['.'] then acc
  else if seg = ['.', '.'] then
    if rooted then acc.dropLast
    else if acc ≠ [] ∧ acc.getLast? ≠ some ['.', '.'] then acc.dropLast
    else acc ++ [['.', '.']]
  else acc ++ [seg]

/-- Go `filepath.Clean` on a slash-separated path: split on the separator,
process the segments left to right, rejoin; an empty result is `/` for a
rooted path and `.` otherwise. -/
def cleanList (l : List Char) : List Char :=
  if l = [] then ['.']
  else if startsWithSlash l then
    if List.intercalate ['/'] ((splitSlash l).foldl (cleanSegsStep true) []) = [] then ['/']
    else '/' :: List.intercalate ['/'] ((splitSlash l).foldl (cleanSegsStep true) [])
  else
    if List.intercalate ['/'] ((splitSlash l).foldl (cleanSegsStep false) []) = [] then ['.']
    else List.intercalate ['/'] ((splitSlash l).foldl (cleanSegsStep false) [])

/-- `sanitizeArchivePath` from cmd/update.go: backslashes to slashes, strip a
leading `./`, reject empty, absolute, or dot-dot-containing entries, then
clean; a path cleaning to `.` is also rejected. -/
def sanitizeArchivePath (name : String) : String :=
  if trimDotSlash (backslashToSlash name.data) = [] then ""
  else if startsWithSlash (trimDotSlash (backslashToSlash name.data)) then ""
  else if (splitSlash (trimDotSlash (backslashToSlash name.data))).contains ['.', '.'] then ""
  else if cleanList (trimDotSlash (backslashToSlash name.data)) = ['.'] then ""
  else ⟨cleanList (trimDotSlash (backslashToSlash name.data))⟩

/-- `splitSlash` never returns the empty list. -/
theorem splitSlash_ne_nil : ∀ l : List Char, splitSlash l ≠ [] := by
  intro l
  cases l with
  | nil => simp [splitSlash]
  | cons c rest =>
    rw [splitSlash]
    rcases h : splitSlash rest with _ | ⟨h0, t⟩
    · simp
    · by_cases hc : c = '/'
      · simp [hc]
      · simp [hc]

/-- Segments produced by `splitSlash` contain no separator. -/
theorem splitSlash_no_slash : ∀ (l : List Char), ∀ s ∈ splitSlash l, '/' ∉ s := by
  intro l
  induction l with
  | nil =>
    intro s hs
    rw [splitSlash] at hs
    simp at hs
    simp [hs]
  | cons c rest ih =>
    intro s hs
    rw [splitSlash] at hs
    rcases h : splitSlash rest with _ | ⟨h0, t⟩
    · exact absurd h (splitSlash_ne_nil rest)
    · by_cases hc : c = '/'
      · simp only [h, if_pos hc] at hs
        rcases List.mem_cons.mp hs with rfl | hs2
        · simp
        · exact ih s (by rw [h]; exact hs2)
      · simp only [h, if_neg hc] at hs
        rcases List.mem_cons.mp hs with rfl | hs2
        · intro hmem
          rcases List.mem_cons.mp hmem with h1 | h2
          · exact hc h1.symm
          · exact ih h0 (by rw [h]; exact List.mem_cons_self h0 t) h2
        · exact ih s (by rw [h]; exact List.mem_cons_of_mem h0 hs2)

/-- In a relative path with no dot-dot segment, the fold of `cleanSegsStep`
keeps only plain segments: non-empty, not a dot, not a dot-dot, and without
separators. -/
theorem cleanFold_plain :
    ∀ (segs : List (List Char)) (acc : List (List Char)),
      (∀ s ∈ acc, s ≠ [] ∧ s ≠ ['.'] ∧ s ≠ ['.', '.'] ∧ '/' ∉ s) →
      (∀ s ∈ segs, s ≠ ['.', '.'] ∧ '/' ∉ s) →
      ∀ s ∈ segs.foldl (cleanSegsStep false) acc,
        s ≠ [] ∧ s ≠ ['.'] ∧ s ≠ ['.', '.'] ∧ '/' ∉ s := by
  intro segs
  induction segs with
  | nil =>
    intro acc hacc _ s hs
    exact hacc s (by simpa using hs)
  | cons seg rest ih =>
    intro acc hacc hsegs s hs
    rw [List.foldl_cons] at hs
    have hseg := hsegs seg (List.mem_cons_self seg rest)
    have hrest : ∀ s2 ∈ rest, s2 ≠ ['.', '.'] ∧ '/' ∉ s2 :=
      fun s2 hs2 => hsegs s2 (List.mem_cons_of_mem seg hs2)
    refine ih _ ?_ hrest s hs
    rw [cleanSegsStep]
    by_cases h1 : seg = [] ∨ seg = ['.']
    · rw [if_pos h1]
      exact hacc
    · rw [if_neg h1]
      rw [if_neg hseg.1]
      intro s2 hs2
      rcases List.mem_append.mp hs2 with hsa | hsb
      · exact hacc s2 hsa
      · have : s2 = seg := by simpa using hsb
        subst this
        push_neg at h1
        exact ⟨h1.1, h1.2, hseg.1, hseg.2⟩

/-- `filepath.Clean` never returns the empty string. -/
theorem cleanList_ne_nil (l : List Char) : cleanList l ≠ [] := by
  rw [cleanList]
  split_ifs <;> simp_all

/-- C4: sanitization maps the six specified entries as stated, and in
general an entry is rejected (mapped to the empty string) exactly when,
after backslash conversion and `./`-stripping, it is empty, absolute,
contains a `..` segment, or cleans to `.`; every other entry is mapped to a
clean relative path: a non-empty join of plain segments (no empty, `.`,
`..`, or separator-containing segment), not starting with a slash. -/
theorem sanitizeArchivePath_spec :
    sanitizeArchivePath "../x" = ""
    ∧ sanitizeArchivePath "dir/../x" = ""
    ∧ sanitizeArchivePath "/abs/x" = ""
    ∧ sanitizeArchivePath "dir\\x" = "dir/x"
    ∧ sanitizeArchivePath "./x" = "x"
    ∧ sanitizeArchivePath "x" = "x"
    ∧ ∀ name : String,
        (sanitizeArchivePath name = "" ↔
          (trimDotSlash (backslashToSlash name.data) = []
            ∨ startsWithSlash (trimDotSlash (backslashToSlash name.data)) = true
            ∨ (splitSlash (trimDotSlash (backslashToSlash name.data))).contains
                ['.', '.'] = true
            ∨ cleanList (trimDotSlash (backslashToSlash name.data)) = ['.']))
        ∧ (sanitizeArchivePath name ≠ "" →
            ∃ segs : List (List Char), segs ≠ []
              ∧ (∀ s ∈ segs, s ≠ [] ∧ s ≠ ['.'] ∧ s ≠ ['.', '.'] ∧ '/' ∉ s)
              ∧ (sanitizeArchivePath name).data = List.intercalate ['/'] segs) := by
  refine ⟨by decide, by decide, by decide, by decide, by decide, by decide, ?_⟩
  intro name
  constructor
  · rw [sanitizeArchivePath]
    split_ifs with h1 h2 h3 h4
    · exact iff_of_true rfl (Or.inl h1)
    · exact iff_of_true rfl (Or.inr (Or.inl h2))
    · exact iff_of_true rfl (Or.inr (Or.inr (Or.inl h3)))
    · exact iff_of_true rfl (Or.inr (Or.inr (Or.inr h4)))
    · apply iff_of_false
      · intro hcontra
        exact cleanList_ne_nil _ (congrArg String.data hcontra)
      · rintro (h | h | h | h)
        · exact h1 h
        · exact h2 h
        · exact h3 h
        · exact h4 h
  · intro hne
    rw [sanitizeArchivePath] at hne ⊢
    split_ifs at hne ⊢ with h1 h2 h3 h4
    · exact absurd rfl hne
    · exact absurd rfl hne
    · exact absurd rfl hne
    · exact absurd rfl hne
    · have hrooted : startsWithSlash (trimDotSlash (backslashToSlash name.data)) = false := by
        cases hx : startsWithSlash (trimDotSlash (backslashToSlash name.data))
        · rfl
        · exact absurd hx h2
      have hjoin : List.intercalate ['/']
          ((splitSlash (trimDotSlash (backslashToSlash name.data))).foldl
            (cleanSegsStep false) []) ≠ [] := by
        intro hcontra
        apply h4
        rw [cleanList, if_neg h1, hrooted]
        simp [hcontra]
      have hcl : cleanList (trimDotSlash (backslashToSlash name.data))
          = List.intercalate ['/']
            ((splitSlash (trimDotSlash (backslashToSlash name.data))).foldl
              (cleanSegsStep false) []) := by
        rw [cleanList, if_neg h1, hrooted]
        simp [hjoin]
      refine ⟨(splitSlash (trimDotSlash (backslashToSlash name.data))).foldl
        (cleanSegsStep false) [], ?_, ?_, ?_⟩
      · intro hcontra
        apply hjoin
        rw [hcontra]
        rfl
      · refine cleanFold_plain _ [] (by simp) ?_
        intro s hs
        refine ⟨?_, splitSlash_no_slash _ s hs⟩
        intro hcontra
        apply h3
        subst hcontra
        simpa using hs
      · show cleanList (trimDotSlash (backslashToSlash name.data)) = _
        exact hcl

/-- C4 witness: a concrete accepted entry is mapped to a clean relative
path. -/
theorem sanitizeArchivePath_spec_witness :
    sanitizeArchivePath "a/b.md" ≠ ""
    ∧ ∃ segs : List (List Char), segs ≠ []
        ∧ (∀ s ∈ segs, s ≠ [] ∧ s ≠ ['.'] ∧ s ≠ ['.', '.'] ∧ '/' ∉ s)
        ∧ (sanitizeArchivePath "a/b.md").data = List.intercalate ['/'] segs :=
  ⟨by decide, (sanitizeArchivePath_spec.2.2.2.2.2.2 "a/b.md").2 (by decide)⟩

/- ══════════ Semantic index loader (internal/search/index, Load) ═══════════ -/

/-- The manifest fields consumed by the loader (`index_manifest.json`). -/
structure Manifest where
  modelId : String
  dim : Int
  normalize : Bool
  vectorFile : String
  skillsFile : String
deriving DecidableEq

/-- One row of `skills.jsonl` (fields irrelevant to the claims are kept as
opaque strings). -/
structure SkillEntry where
  id : String
  path : String
  name : String
  description : String
deriving DecidableEq

/-- One physical line of the skills JSONL as the scanner sees it: empty
(skipped), a JSON-parsable row, or an unparsable line. -/
inductive SkillLine where
  | blank
  | okLine (e : SkillEntry)
  | badLine
deriving DecidableEq

/-- The on-disk state `Load` reads, with all files readable (the premise of
the claim): the parse outcome of the manifest, the scanned skills lines, the
vector file's byte length, and the IEEE-754 float32 little-endian decoding
of its 4-byte words (abstracted to a word-indexed rational value). -/
structure IndexFs where
  manifest : Option Manifest
  skillLines : List SkillLine
  vecLen : Nat
  word : Nat → ℚ

/-- A loaded index. -/
structure Index where
  manifest : Manifest
  skills : List SkillEntry
  vectors : List ℚ

/-- `loadSkills`: scan the JSONL lines, skipping empty lines and failing on
the first unparsable one. -/
def loadSkills : List SkillLine → Except String (List SkillEntry)
  | [] => .ok []
  | .blank :: rest => loadSkills rest
  | .badLine :: _ => .error "invalid skills JSONL"
  | .okLine e :: rest =>
    match loadSkills rest with
    | .ok out => .ok (e :: out)
    | .error msg => .error msg

/-- `loadVectors`: reject a byte length that is not a multiple of 4, then a
byte length different from `nSkills × dim × 4`, then decode the words. -/
def loadVectors (vecLen : Nat) (word : Nat → ℚ) (nSkills dim : Nat) :
    Except String (List ℚ) :=
  if vecLen % 4 ≠ 0 then .error "vector file size is not multiple of 4 bytes"
  else if nSkills * dim * 4 ≠ vecLen then .error "vector file size mismatch"
  else .ok ((List.range (nSkills * dim)).map word)

/-- `Load` from internal/search/index: manifest, then skills, then vectors.
The `VectorFile`/`SkillsFile` defaulting in the source only picks file
names, which the abstract `IndexFs` already fixes. -/
def Load (fs : IndexFs) : Except String Index :=
  match fs.manifest with
  | none => .error "invalid manifest JSON"
  | some m =>
    if m.dim ≤ 0 then .error "invalid dim in manifest"
    else
      match loadSkills fs.skillLines with
      | .error msg => .error msg
      | .ok skills =>
        match loadVectors fs.vecLen fs.word skills.length m.dim.toNat with
        | .error msg => .error msg
        | .ok vectors => .ok ⟨m, skills, vectors⟩

/-- Number of parsable rows of the skills file (what `n_skills` denotes). -/
def okLineCount (lines : List SkillLine) : Nat :=
  (lines.filter fun ln => match ln with | .okLine _ => true | _ => false).length

/-- `loadSkills` fails exactly on a bad line, and otherwise returns one
entry per parsable line. -/
theorem loadSkills_spec : ∀ lines : List SkillLine,
    ((∃ msg, loadSkills lines = .error msg) ↔ SkillLine.badLine ∈ lines)
    ∧ (∀ out, loadSkills lines = .ok out → out.length = okLineCount lines) := by
  intro lines
  induction lines with
  | nil =>
    refine ⟨⟨fun ⟨msg, hmsg⟩ => by simp [loadSkills] at hmsg, fun h => by simp at h⟩, ?_⟩
    intro out hout
    simp [loadSkills] at hout
    simp [← hout, okLineCount]
  | cons ln rest ih =>
    cases ln with
    | blank =>
      refine ⟨⟨fun ⟨msg, hmsg⟩ => ?_, fun h => ?_⟩, fun out hout => ?_⟩
      · exact List.mem_cons_of_mem _ (ih.1.mp ⟨msg, by rw [loadSkills] at hmsg; exact hmsg⟩)
      · rcases List.mem_cons.mp h with h1 | h2
        · exact absurd h1.symm (by simp)
        · obtain ⟨msg, hmsg⟩ := ih.1.mpr h2
          exact ⟨msg, by rw [loadSkills]; exact hmsg⟩
      · rw [loadSkills] at hout
        rw [ih.2 out hout]
        simp [okLineCount]
    | badLine =>
      refine ⟨⟨fun _ => List.mem_cons_self _ _, fun _ => ⟨"invalid skills JSONL", rfl⟩⟩,
        fun out hout => ?_⟩
      exact absurd hout (by rw [loadSkills]; simp)
    | okLine e =>
      refine ⟨⟨fun ⟨msg, hmsg⟩ => ?_, fun h => ?_⟩, fun out hout => ?_⟩
      · rw [loadSkills] at hmsg
        rcases hrest : loadSkills rest with msg2 | out2
        · exact List.mem_cons_of_mem _ (ih.1.mp ⟨msg2, hrest⟩)
        · rw [hrest] at hmsg
          exact absurd hmsg (by simp)
      · rcases List.mem_cons.mp h with h1 | h2
        · exact absurd h1.symm (by simp)
        · obtain ⟨msg, hmsg⟩ := ih.1.mpr h2
          refine ⟨msg, ?_⟩
          rw [loadSkills, hmsg]
      · rw [loadSkills] at hout
        rcases hrest : loadSkills rest with msg2 | out2
        · rw [hrest] at hout
          exact absurd hout (by simp)
        · rw [hrest] at hout
          obtain rfl : e :: out2 = out := by simpa using hout
          have := ih.2 out2 hrest
          simp [okLineCount] at this ⊢
          omega

/-- C5: `Load` fails precisely when the manifest is unparsable, its dim is
not positive, some skills line is unparsable, the vectors-file size is not a
multiple of 4, or it differs from `n_skills × dim × 4`; on success the index
has `n_skills` skills and `n_skills × dim` vector entries. -/
theorem Load_fails_iff (fs : IndexFs) :
    ((∃ msg, Load fs = .error msg) ↔
      (fs.manifest = none
        ∨ (∃ m, fs.manifest = some m ∧ m.dim ≤ 0)
        ∨ SkillLine.badLine ∈ fs.skillLines
        ∨ fs.vecLen % 4 ≠ 0
        ∨ (∃ m, fs.manifest = some m
            ∧ okLineCount fs.skillLines * m.dim.toNat * 4 ≠ fs.vecLen)))
    ∧ (∀ idx, Load fs = .ok idx →
        idx.skills.length = okLineCount fs.skillLines
        ∧ ∃ m, fs.manifest = some m
          ∧ idx.vectors.length = okLineCount fs.skillLines * m.dim.toNat) := by
  rcases hm : fs.manifest with _ | m
  · constructor
    · exact iff_of_true ⟨"invalid manifest JSON", by simp [Load, hm]⟩ (Or.inl rfl)
    · intro idx hidx
      simp [Load, hm] at hidx
  · by_cases hdim : m.dim ≤ 0
    · constructor
      · exact iff_of_true ⟨"invalid dim in manifest", by simp [Load, hm, hdim]⟩
          (Or.inr (Or.inl ⟨m, rfl, hdim⟩))
      · intro idx hidx
        simp [Load, hm, hdim] at hidx
    · rcases hsk : loadSkills fs.skillLines with msg | skills
      · have hbad : SkillLine.badLine ∈ fs.skillLines :=
          (loadSkills_spec fs.skillLines).1.mp ⟨msg, hsk⟩
        constructor
        · refine iff_of_true ⟨msg, ?_⟩ (Or.inr (Or.inr (Or.inl hbad)))
          simp [Load, hm, hdim, hsk]
        · intro idx hidx
          simp [Load, hm, hdim, hsk] at hidx
      · have hcount := (loadSkills_spec fs.skillLines).2 skills hsk
        by_cases h4 : fs.vecLen % 4 = 0
        · by_cases hlen : skills.length * m.dim.toNat * 4 = fs.vecLen
          · have hload : Load fs
                = .ok ⟨m, skills, (List.range (skills.length * m.dim.toNat)).map fs.word⟩ := by
              simp [Load, hm, hdim, hsk, loadVectors, h4, hlen]
            constructor
            · apply iff_of_false
              · rintro ⟨msg, hmsg⟩
                rw [hload] at hmsg
                exact Except.noConfusion hmsg
              · rintro (h | ⟨m2, hm2, hd2⟩ | h | h | ⟨m2, hm2, hl2⟩)
                · exact Option.noConfusion h
                · obtain rfl := Option.some.inj hm2
                  exact hdim hd2
                · obtain ⟨msg, hmsg⟩ := (loadSkills_spec fs.skillLines).1.mpr h
                  rw [hsk] at hmsg
                  exact Except.noConfusion hmsg
                · exact h h4
                · obtain rfl := Option.some.inj hm2
                  rw [← hcount] at hl2
                  exact hl2 hlen
            · intro idx hidx
              rw [hload] at hidx
              obtain rfl := Except.ok.inj hidx
              refine ⟨hcount, m, rfl, ?_⟩
              simp [hcount]
          · constructor
            · refine iff_of_true ⟨"vector file size mismatch", ?_⟩
                (Or.inr (Or.inr (Or.inr (Or.inr ⟨m, rfl, ?_⟩))))
              · simp [Load, hm, hdim, hsk, loadVectors, h4, hlen]
              · rw [← hcount]
                exact hlen
            · intro idx hidx
              simp [Load, hm, hdim, hsk, loadVectors, h4, hlen] at hidx
        · constructor
          · refine iff_of_true ⟨"vector file size is not multiple of 4 bytes", ?_⟩
              (Or.inr (Or.inr (Or.inr (Or.inl h4))))
            simp [Load, hm, hdim, hsk, loadVectors, h4]
          · intro idx hidx
            simp [Load, hm, hdim, hsk, loadVectors, h4] at hidx

/-- A concrete on-disk index state: one parsable skill row, dim 2, an
8-byte vector file. -/
def demoIndexFs : IndexFs :=
  ⟨some ⟨"openai:text-embedding-3-small", 2, true, "vectors.f32", "skills.jsonl"⟩,
   [.okLine ⟨"a", "skills/a", "a", "demo"⟩], 8, fun _ => 0⟩

/-- The index `Load` produces from `demoIndexFs`. -/
def demoIndex : Index :=
  ⟨⟨"openai:text-embedding-3-small", 2, true, "vectors.f32", "skills.jsonl"⟩,
   [⟨"a", "skills/a", "a", "demo"⟩], [0, 0]⟩

/-- C5 witness: on the concrete state the loader succeeds with one skill and
two vector entries. -/
theorem Load_fails_iff_witness :
    Load demoIndexFs = .ok demoIndex
    ∧ (demoIndex.skills.length = okLineCount demoIndexFs.skillLines
        ∧ ∃ m, demoIndexFs.manifest = some m
          ∧ demoIndex.vectors.length = okLineCount demoIndexFs.skillLines * m.dim.toNat) :=
  ⟨rfl, (Load_fails_iff demoIndexFs).2 demoIndex rfl⟩

/- ═══════════ Semantic search query path (cmd search, part of src) ══════════ -/

/-- Go byte-wise string comparison `x <= y`, on character lists. -/
def strLeList : List Char → List Char → Bool
  | [], _ => true
  | _ :: _, [] => false
  | a :: as, b :: bs =>
    if a.toNat < b.toNat then true
    else if b.toNat < a.toNat then false
    else strLeList as bs

theorem strLeList_total : ∀ x y : List Char, strLeList x y = true ∨ strLeList y x = true := by
  intro x
  induction x with
  | nil => intro y; exact Or.inl rfl
  | cons a as ih =>
    intro y
    cases y with
    | nil => exact Or.inr rfl
    | cons b bs =>
      rw [strLeList, strLeList]
      rcases Nat.lt_trichotomy a.toNat b.toNat with h | h | h
      · left
        rw [if_pos h]
      · rw [if_neg (by omega), if_neg (by omega), if_neg (by omega), if_neg (by omega)]
        exact ih bs
      · right
        rw [if_pos h]

theorem strLeList_trans : ∀ x y z : List Char,
    strLeList x y = true → strLeList y z = true → strLeList x z = true := by
  intro x
  induction x with
  | nil => intro y z _ _; rfl
  | cons a as ih =>
    intro y z hxy hyz
    cases y with
    | nil => exact absurd hxy (by simp [strLeList])
    | cons b bs =>
      cases z with
      | nil => exact absurd hyz (by simp [strLeList])
      | cons c cs =>
        rw [strLeList] at hxy hyz ⊢
        rcases Nat.lt_trichotomy a.toNat b.toNat with hab | hab | hab
        · rcases Nat.lt_trichotomy b.toNat c.toNat with hbc | hbc | hbc
          · rw [if_pos (by omega)]
          · rw [if_pos (by omega)]
          · rw [if_neg (by omega), if_pos hbc] at hyz
            exact absurd hyz (by simp)
        · rcases Nat.lt_trichotomy b.toNat c.toNat with hbc | hbc | hbc
          · rw [if_pos (by omega)]
          · rw [if_neg (by omega), if_neg (by omega)]
            rw [if_neg (by omega), if_neg (by omega)] at hxy
            rw [if_neg (by omega), if_neg (by omega)] at hyz
            exact ih bs cs hxy hyz
          · rw [if_neg (by omega), if_pos hbc] at hyz
            exact absurd hyz (by simp)
        · rw [if_neg (by omega), if_pos hab] at hxy
          exact absurd hxy (by simp)

/-- The ordering used by `SortResults` (internal/search, `sort.Slice`): score
descending, ties broken by ascending skill id.  `sortLe a b` holds when `a`
may come before `b`. -/
def sortLe (a b : String × ℚ) : Prop :=
  b.2 < a.2 ∨ (a.2 = b.2 ∧ strLeList a.1.data b.1.data = true)

instance (a b : String × ℚ) : Decidable (sortLe a b) := by
  unfold sortLe
  infer_instance

instance : IsTotal (String × ℚ) sortLe := by
  constructor
  intro a b
  rcases lt_trichotomy a.2 b.2 with h | h | h
  · exact Or.inr (Or.inl h)
  · rcases strLeList_total a.1.data b.1.data with hs | hs
    · exact Or.inl (Or.inr ⟨h, hs⟩)
    · exact Or.inr (Or.inr ⟨h.symm, hs⟩)
  · exact Or.inl (Or.inl h)

instance : IsTrans (String × ℚ) sortLe := by
  constructor
  intro a b c hab hbc
  rcases hab with h1 | ⟨h1, hs1⟩
  · rcases hbc with h2 | ⟨h2, hs2⟩
    · exact Or.inl (lt_trans h2 h1)
    · exact Or.inl (h2 ▸ h1)
  · rcases hbc with h2 | ⟨h2, hs2⟩
    · exact Or.inl (h1 ▸ h2)
    · exact Or.inr ⟨h1.trans h2, strLeList_trans _ _ _ hs1 hs2⟩

/-- `resolveSemanticMinScore` from the search command: an explicit
`--min-score` always wins; an explicit `--k` without `--min-score` disables
the default filter; otherwise the default threshold 0.30 applies (the Go
float64 constant `0.30` is modelled as the rational 3/10). -/
def resolveSemanticMinScore (minScoreChanged kChanged : Bool) (flagMinScore : ℚ) : ℚ :=
  if minScoreChanged then flagMinScore
  else if kChanged then 0
  else mkRat 3 10

/-- The score filter of `semanticSearch`: a document survives unless the
threshold is positive and its score is below it (`minScore > 0 && score <
minScore` skips the document). -/
def semanticFilter (minScore : ℚ) (docs : List (String × ℚ)) : List (String × ℚ) :=
  docs.filter fun d => !(decide (0 < minScore) && decide (d.2 < minScore))

/-- The post-embedding part of `semanticSearch`: documents are given with
their cosine scores (the float arithmetic of `Cosine` is abstracted into the
scores, modelled as rationals).  Empty surviving set → error; otherwise sort
by `SortResults` and truncate to `k` when `k > 0` and more results remain. -/
def semanticSearch (minScore : ℚ) (k : Int) (docs : List (String × ℚ)) :
    Except String (List (String × ℚ)) :=
  if semanticFilter minScore docs = [] then .error "no semantic results above min score"
  else if 0 < k ∧ k.toNat < (List.insertionSort sortLe (semanticFilter minScore docs)).length
  then .ok ((List.insertionSort sortLe (semanticFilter minScore docs)).take k.toNat)
  else .ok (List.insertionSort sortLe (semanticFilter minScore docs))

/-- The outcome of one `runSearch` invocation. -/
inductive SearchOutcome where
  | indexBuilt
  | helpShown
  | keywordResults (res : List (String × ℚ))
  | semanticResults (res : List (String × ℚ))
  | failed (msg : String)
deriving DecidableEq

/-- The dispatch of `runSearch`: `--index` builds, no arguments shows help,
`--keyword` forces keyword search, `--semantic` is strict (surfaces the
semantic error), and the default mode falls back to keyword search whenever
`semanticSearch` returns an error.  The keyword engine's output is the
`keywordRes` parameter. -/
def runSearch (flagIndex flagKeyword flagSemantic hasArgs : Bool)
    (semOutcome : Except String (List (String × ℚ)))
    (keywordRes : List (String × ℚ)) : SearchOutcome :=
  if flagIndex then .indexBuilt
  else if !hasArgs then .helpShown
  else if flagKeyword then .keywordResults keywordRes
  else if flagSemantic then
    match semOutcome with
    | .ok r => .semanticResults r
    | .error msg => .failed msg
  else
    match semOutcome with
    | .ok r => .semanticResults r
    | .error _ => .keywordResults keywordRes

/-- C6 (amended): the effective threshold is the explicit `--min-score`
value when that flag was set, 0 when only `--k` was set, and 0.30 when
neither was; the score filter applies only when the effective threshold is
positive (a non-positive threshold retains every document regardless of
score); surviving results are sorted by score descending with ties broken by
ascending id, and truncated to `k` when `k > 0`. -/
theorem semanticSearch_spec :
    (∀ (kChanged : Bool) (f : ℚ), resolveSemanticMinScore true kChanged f = f)
    ∧ (∀ f : ℚ, resolveSemanticMinScore false true f = 0)
    ∧ (∀ f : ℚ, resolveSemanticMinScore false false f = mkRat 3 10)
    ∧ (∀ (t : ℚ) (k : Int) (docs res : List (String × ℚ)),
        semanticSearch t k docs = .ok res →
          List.Sorted sortLe res
          ∧ (∀ d ∈ res, d ∈ docs ∧ (0 < t → t ≤ d.2))
          ∧ (0 < k → res.length ≤ k.toNat)
          ∧ ∃ rest, (res ++ rest).Perm (semanticFilter t docs)) := by
  refine ⟨fun kChanged f => rfl, fun f => rfl, fun f => rfl, ?_⟩
  intro t k docs res h
  have hmem : ∀ d ∈ semanticFilter t docs, d ∈ docs ∧ (0 < t → t ≤ d.2) := by
    intro d hd
    rw [semanticFilter, List.mem_filter] at hd
    refine ⟨hd.1, fun hpos => ?_⟩
    have hp := hd.2
    simp [hpos] at hp
    exact hp
  have hsorted := List.sorted_insertionSort sortLe (semanticFilter t docs)
  have hperm := List.perm_insertionSort sortLe (semanticFilter t docs)
  rw [semanticSearch] at h
  split_ifs at h with h1 h2
  · have heq := Except.ok.inj h
    subst heq
    refine ⟨?_, ?_, ?_, ?_⟩
    · exact List.Pairwise.sublist (List.take_sublist _ _) hsorted
    · intro d hd
      exact hmem d (hperm.mem_iff.mp (List.mem_of_mem_take hd))
    · intro _
      simp
    · refine ⟨(List.insertionSort sortLe (semanticFilter t docs)).drop k.toNat, ?_⟩
      rw [List.take_append_drop]
      exact hperm
  · have heq := Except.ok.inj h
    subst heq
    refine ⟨hsorted, ?_, ?_, ⟨[], by simpa using hperm⟩⟩
    · intro d hd
      exact hmem d (hperm.mem_iff.mp hd)
    · intro hk
      rcases Decidable.not_and_iff_or_not.mp h2 with hc | hc
      · exact absurd hk hc
      · omega

/-- C6 counterexample: with `--k` set and `--min-score` not set the
effective threshold is 0, the filter is disabled, and a document with a
negative cosine score (which does not reach the threshold) is still
included in the results. -/
theorem semanticSearch_threshold_counterexample :
    resolveSemanticMinScore false true (mkRat 3 10) = 0
    ∧ semanticSearch 0 1 [("a", mkRat (-1) 2)] = .ok [("a", mkRat (-1) 2)]
    ∧ ¬ ((0 : ℚ) ≤ mkRat (-1) 2) :=
  ⟨rfl, rfl, by decide⟩

/-- C6 witness: with threshold 1/2 and one passing document, the search
returns it sorted and within the k bound. -/
theorem semanticSearch_spec_witness :
    semanticSearch (mkRat 1 2) 5 [("a", 1)] = .ok [("a", 1)]
    ∧ (List.Sorted sortLe [(("a" : String), (1 : ℚ))]
        ∧ (∀ d ∈ [(("a" : String), (1 : ℚ))],
            d ∈ [(("a" : String), (1 : ℚ))] ∧ (0 < mkRat 1 2 → mkRat 1 2 ≤ d.2))
        ∧ ((0 : Int) < 5 → ([(("a" : String), (1 : ℚ))] : List (String × ℚ)).length
            ≤ (5 : Int).toNat)
        ∧ ∃ rest, ([(("a" : String), (1 : ℚ))] ++ rest).Perm
            (semanticFilter (mkRat 1 2) [("a", 1)])) :=
  ⟨rfl, semanticSearch_spec.2.2.2 (mkRat 1 2) 5 [("a", 1)] [("a", 1)] rfl⟩

/-- C10: when the effective threshold is positive and no stored document's
score reaches it, `semanticSearch` returns an error (never an empty ok
list); in the default mode (no `--index`, `--keyword` or `--semantic`, with
a query) that error silently falls back to keyword search. -/
theorem semanticSearch_empty_falls_back (t : ℚ) (k : Int)
    (docs kw : List (String × ℚ))
    (hpos : 0 < t) (hbelow : ∀ d ∈ docs, d.2 < t) :
    (∃ msg, semanticSearch t k docs = .error msg)
    ∧ (∀ res, semanticSearch t k docs ≠ .ok res)
    ∧ runSearch false false false true (semanticSearch t k docs) kw
        = .keywordResults kw := by
  have hfilter : semanticFilter t docs = [] := by
    rw [semanticFilter, List.filter_eq_nil_iff]
    intro d hd
    simp [hpos, hbelow d hd]
  have herr : semanticSearch t k docs = .error "no semantic results above min score" := by
    rw [semanticSearch, if_pos hfilter]
  refine ⟨⟨_, herr⟩, ?_, ?_⟩
  · intro res hres
    rw [herr] at hres
    exact Except.noConfusion hres
  · rw [herr]
    rfl

/-- C10 witness: at the default threshold 0.30 with one document scoring
0.10, semantic search errors and the default mode answers with the keyword
results. -/
theorem semanticSearch_empty_falls_back_witness :
    ((0 : ℚ) < mkRat 3 10 ∧ ∀ d ∈ [(("a" : String), mkRat 1 10)], d.2 < mkRat 3 10)
    ∧ runSearch false false false true
        (semanticSearch (mkRat 3 10) 5 [("a", mkRat 1 10)]) [("kw", 1)]
        = .keywordResults [("kw", 1)] :=
  ⟨⟨by decide, by decide⟩,
    (semanticSearch_empty_falls_back (mkRat 3 10) 5 [("a", mkRat 1 10)] [("kw", 1)]
      (by decide) (by decide)).2.2⟩

/- ══════════════════ Read-only sync pipeline (cmd sync) ══════════════════ -/

/-- The whitespace characters relevant to `strings.TrimSpace` for git
porcelain output (the ASCII subset of `unicode.IsSpace`). -/
def isSpaceChar (c : Char) : Bool :=
  c = ' ' || c = '\t' || c = '\n' || c = '\r' || c = '\x0b' || c = '\x0c'

/-- Go `strings.TrimSpace`, on character lists. -/
def goTrimSpace (l : List Char) : List Char :=
  ((l.dropWhile isSpaceChar).reverse.dropWhile isSpaceChar).reverse

/-- `syncReadOnly`: the sequence of git sub-command invocations (arguments
after `git -C <repo>`) and whether the dirty-tree warning is printed.
`gitIsDirty` runs `git status --porcelain` (a failing status aborts the
pipeline); then `git pull --ff-only origin master` runs, whatever the
working tree looked like. -/
def syncReadOnly (statusFails : Bool) (statusOut : String) :
    List (List String) × Bool :=
  if statusFails then ([["status", "--porcelain"]], false)
  else ([["status", "--porcelain"], ["pull", "--ff-only", "origin", "master"]],
        !(goTrimSpace statusOut.data).isEmpty)

/-- C8: in read-only mode the git invocations never include a commit, add,
or push; the trace is the status query alone (when it fails) or the status
query followed by `git pull --ff-only origin master`, and the warning fires
exactly when the porcelain status is non-empty after trimming. -/
theorem syncReadOnly_never_writes (statusFails : Bool) (statusOut : String) :
    (∀ c ∈ (syncReadOnly statusFails statusOut).1,
      ∀ sub, c.head? = some sub → sub ≠ "commit" ∧ sub ≠ "add" ∧ sub ≠ "push")
    ∧ ((syncReadOnly statusFails statusOut).1 = [["status", "--porcelain"]]
        ∨ (syncReadOnly statusFails statusOut).1
            = [["status", "--porcelain"], ["pull", "--ff-only", "origin", "master"]])
    ∧ (statusFails = false →
        (syncReadOnly statusFails statusOut).1
          = [["status", "--porcelain"], ["pull", "--ff-only", "origin", "master"]]
        ∧ ((syncReadOnly statusFails statusOut).2 = true
            ↔ goTrimSpace statusOut.data ≠ [])) := by
  cases statusFails with
  | true =>
    refine ⟨?_, Or.inl rfl, by simp [syncReadOnly]⟩
    intro c hc sub hsub
    rw [syncReadOnly] at hc
    simp at hc
    subst hc
    simp at hsub
    subst hsub
    exact ⟨by decide, by decide, by decide⟩
  | false =>
    refine ⟨?_, Or.inr rfl, fun _ => ⟨rfl, ?_⟩⟩
    · intro c hc sub hsub
      rw [syncReadOnly] at hc
      simp at hc
      rcases hc with rfl | rfl
      · simp at hsub
        subst hsub
        exact ⟨by decide, by decide, by decide⟩
      · simp at hsub
        subst hsub
        exact ⟨by decide, by decide, by decide⟩
    · simp [syncReadOnly]

/-- C8 witness: a dirty tree in read-only mode warns and still only runs
the status query and the fast-forward pull. -/
theorem syncReadOnly_never_writes_witness :
    ((syncReadOnly false " M x").1
      = [["status", "--porcelain"], ["pull", "--ff-only", "origin", "master"]])
    ∧ ((syncReadOnly false " M x").2 = true ↔ goTrimSpace (" M x").data ≠ []) :=
  (syncReadOnly_never_writes false " M x").2.2 rfl
